import Mathlib

/-!
Shallow embedding of the 2x2 SVD core (`utils/matrix` module) of the
SVD-Visualizer repository, over exact real arithmetic, together with
verification of the specified properties.

The source operates on IEEE doubles; here every `number` is modelled as a
real number, `Math.sqrt` as `Real.sqrt`, `Math.atan2 y x` as the argument
of the complex number `x + y*I`, and `Math.cos`/`Math.sin` as
`Real.cos`/`Real.sin`.  Each definition mirrors one statement of the
source, with the source's intermediate `let` bindings lifted to named
top-level definitions so theorems can speak about them.
-/

/-- A 2x2 real matrix `[[m00, m01], [m10, m11]]` (row-major, as in the
source's `Matrix2x2 = [[number,number],[number,number]]`). -/
@[ext] structure Matrix2x2 where
  m00 : ℝ
  m01 : ℝ
  m10 : ℝ
  m11 : ℝ

/-- Entry access `matrix[i][j]`. -/
def Matrix2x2.entry (m : Matrix2x2) : Fin 2 → Fin 2 → ℝ
  | 0, 0 => m.m00
  | 0, 1 => m.m01
  | 1, 0 => m.m10
  | 1, 1 => m.m11

/-- Result record of `computeSVD`: `u`, singular values `s`, `v` and its
transpose `vt`, exactly the fields of the source's `SVDResult`. -/
structure SVDResult where
  u : Matrix2x2
  s : ℝ × ℝ
  v : Matrix2x2
  vt : Matrix2x2

/-- `Math.atan2 y x`, modelled as the principal argument of `x + y*I`
(the same piecewise arctangent with range `(-pi, pi]`). -/
noncomputable def atan2 (y x : ℝ) : ℝ := Complex.arg (x + y * Complex.I)

/-- Source `getAngle`: `Math.atan2(matrix[1][0], matrix[0][0])`. -/
noncomputable def getAngle (m : Matrix2x2) : ℝ := atan2 m.m10 m.m00

/-- Source `fromAngle`: `[[cos a, -sin a], [sin a, cos a]]`. -/
noncomputable def fromAngle (angle : ℝ) : Matrix2x2 :=
  ⟨Real.cos angle, -Real.sin angle, Real.sin angle, Real.cos angle⟩

/-- Gram entry `e = a*a + c*c` of `A^T A` (source line `const e`). -/
def gramE (m : Matrix2x2) : ℝ := m.m00 * m.m00 + m.m10 * m.m10

/-- Gram entry `f = a*b + c*d` of `A^T A` (source line `const f`). -/
def gramF (m : Matrix2x2) : ℝ := m.m00 * m.m01 + m.m10 * m.m11

/-- Gram entry `g = b*b + d*d` of `A^T A` (source line `const g`). -/
def gramG (m : Matrix2x2) : ℝ := m.m01 * m.m01 + m.m11 * m.m11

/-- Source `disc = Math.sqrt((e - g) * (e - g) + 4 * f * f)`. -/
noncomputable def disc (m : Matrix2x2) : ℝ :=
  Real.sqrt ((gramE m - gramG m) * (gramE m - gramG m) + 4 * gramF m * gramF m)

/-- Source `lambda1 = (e + g + disc) / 2`. -/
noncomputable def lambda1 (m : Matrix2x2) : ℝ := (gramE m + gramG m + disc m) / 2

/-- Source `lambda2 = (e + g - disc) / 2`. -/
noncomputable def lambda2 (m : Matrix2x2) : ℝ := (gramE m + gramG m - disc m) / 2

/-- Source `s1 = Math.sqrt(lambda1)`. -/
noncomputable def sv1 (m : Matrix2x2) : ℝ := Real.sqrt (lambda1 m)

/-- Source `s2 = Math.sqrt(lambda2)`. -/
noncomputable def sv2 (m : Matrix2x2) : ℝ := Real.sqrt (lambda2 m)

/-- The pair `(v1, v2)` of eigenvector columns for `V`, mirroring the
source branch: if `Math.abs(f) < 1e-10` then the diagonal-Gram cases
(`e >= g` gives `v1=[1,0], v2=[0,1]`; otherwise `v1=[0,1], v2=[-1,0]`),
else `v1 = [f, lambda1 - e]` normalized and `v2 = [-v1[1], v1[0]]`. -/
noncomputable def vcols (m : Matrix2x2) : (ℝ × ℝ) × (ℝ × ℝ) :=
  if |gramF m| < 1e-10 then
    if gramG m ≤ gramE m then ((1, 0), (0, 1)) else ((0, 1), (-1, 0))
  else
    let n := Real.sqrt (gramF m * gramF m +
      (lambda1 m - gramE m) * (lambda1 m - gramE m))
    ((gramF m / n, (lambda1 m - gramE m) / n),
     (-((lambda1 m - gramE m) / n), gramF m / n))

/-- Source `u1`: `[(a*v1[0] + b*v1[1]) / s1, (c*v1[0] + d*v1[1]) / s1]`
when `s1 > 1e-9`, else the fallback `[1, 0]`. -/
noncomputable def ucol1 (m : Matrix2x2) : ℝ × ℝ :=
  if 1e-9 < sv1 m then
    ((m.m00 * (vcols m).1.1 + m.m01 * (vcols m).1.2) / sv1 m,
     (m.m10 * (vcols m).1.1 + m.m11 * (vcols m).1.2) / sv1 m)
  else (1, 0)

/-- Source `u2`: `[(a*v2[0] + b*v2[1]) / s2, (c*v2[0] + d*v2[1]) / s2]`
when `s2 > 1e-9`, else the orthogonal fallback `[-u1[1], u1[0]]`. -/
noncomputable def ucol2 (m : Matrix2x2) : ℝ × ℝ :=
  if 1e-9 < sv2 m then
    ((m.m00 * (vcols m).2.1 + m.m01 * (vcols m).2.2) / sv2 m,
     (m.m10 * (vcols m).2.1 + m.m11 * (vcols m).2.2) / sv2 m)
  else (-(ucol1 m).2, (ucol1 m).1)

/-- Source `computeSVD`: assembles `u`, `v` from their columns and `vt`
from the rows `v1`, `v2`, returning `{ u, s: [s1, s2], v, vt }`. -/
noncomputable def computeSVD (m : Matrix2x2) : SVDResult :=
  { u := ⟨(ucol1 m).1, (ucol2 m).1, (ucol1 m).2, (ucol2 m).2⟩
    s := (sv1 m, sv2 m)
    v := ⟨(vcols m).1.1, (vcols m).2.1, (vcols m).1.2, (vcols m).2.2⟩
    vt := ⟨(vcols m).1.1, (vcols m).1.2, (vcols m).2.1, (vcols m).2.2⟩ }

/-- Standard 2x2 matrix product, the trusted `math.multiply` primitive
used by the source's `reconstructMatrix`. -/
def matMul (x y : Matrix2x2) : Matrix2x2 :=
  ⟨x.m00 * y.m00 + x.m01 * y.m10, x.m00 * y.m01 + x.m01 * y.m11,
   x.m10 * y.m00 + x.m11 * y.m10, x.m10 * y.m01 + x.m11 * y.m11⟩

/-- Source `reconstructMatrix(u, s, vt)`: `u * [[s0,0],[0,s1]] * vt` via
two chained multiplications. -/
def reconstructMatrix (u : Matrix2x2) (s : ℝ × ℝ) (vt : Matrix2x2) : Matrix2x2 :=
  matMul (matMul u ⟨s.1, 0, 0, s.2⟩) vt

/-- The diagonal matrix `diag(s0, s1)` named by the specification. -/
def diagOf (s : ℝ × ℝ) : Matrix2x2 := ⟨s.1, 0, 0, s.2⟩

/-- Orthonormality of a pair of 2d columns: each has unit norm and they
are perpendicular (stated exactly; it implies the 1e-9-tolerance form). -/
def unitPerp (x y : ℝ × ℝ) : Prop :=
  x.1 ^ 2 + x.2 ^ 2 = 1 ∧ y.1 ^ 2 + y.2 ^ 2 = 1 ∧ x.1 * y.1 + x.2 * y.2 = 0

/-- Determinant of a 2x2 matrix. -/
def det2 (m : Matrix2x2) : ℝ := m.m00 * m.m11 - m.m01 * m.m10

/-- Concrete input `[[5e-6, 5e-6], [0, 0]]`: its Gram matrix has the
tiny nonzero off-diagonal `2.5e-11 < 1e-10`, so `computeSVD` takes the
diagonal fallback branch with axes that are not eigenvectors. -/
def cexU : Matrix2x2 := ⟨5e-6, 5e-6, 0, 0⟩

/-- Concrete input `[[1e-5, 5e-6], [0, 0]]`: rank one with Gram
off-diagonal `5e-11 < 1e-10`, exercising the diagonal fallback branch
together with the zero second singular value. -/
def cexR : Matrix2x2 := ⟨1e-5, 5e-6, 0, 0⟩

/-- Concrete well-conditioned input `[[2, 0], [0, 3]]`. -/
def witR : Matrix2x2 := ⟨2, 0, 0, 3⟩

/-! ### Basic facts about the Gram matrix and the eigenvalue formulas -/

lemma gram_sum_nonneg (m : Matrix2x2) : 0 ≤ gramE m + gramG m := by
  unfold gramE gramG; nlinarith [mul_self_nonneg m.m00, mul_self_nonneg m.m01,
    mul_self_nonneg m.m10, mul_self_nonneg m.m11]

lemma disc_nonneg (m : Matrix2x2) : 0 ≤ disc m := Real.sqrt_nonneg _

lemma disc_arg_nonneg (m : Matrix2x2) :
    0 ≤ (gramE m - gramG m) * (gramE m - gramG m) + 4 * gramF m * gramF m := by
  nlinarith [mul_self_nonneg (gramE m - gramG m), mul_self_nonneg (gramF m)]

lemma disc_mul_self (m : Matrix2x2) :
    disc m * disc m =
      (gramE m - gramG m) * (gramE m - gramG m) + 4 * gramF m * gramF m :=
  Real.mul_self_sqrt (disc_arg_nonneg m)

lemma det_sq_identity (m : Matrix2x2) :
    gramE m * gramG m - gramF m * gramF m = det2 m ^ 2 := by
  unfold gramE gramF gramG det2; ring

lemma disc_le_sum (m : Matrix2x2) : disc m ≤ gramE m + gramG m := by
  have h1 : (gramE m - gramG m) * (gramE m - gramG m) + 4 * gramF m * gramF m ≤
      (gramE m + gramG m) ^ 2 := by
    nlinarith [sq_nonneg (det2 m), det_sq_identity m]
  calc disc m ≤ Real.sqrt ((gramE m + gramG m) ^ 2) := Real.sqrt_le_sqrt h1
    _ = gramE m + gramG m := Real.sqrt_sq (gram_sum_nonneg m)

lemma lambda2_nonneg (m : Matrix2x2) : 0 ≤ lambda2 m := by
  unfold lambda2; linarith [disc_le_sum m]

lemma lambda1_nonneg (m : Matrix2x2) : 0 ≤ lambda1 m := by
  unfold lambda1; linarith [disc_nonneg m, gram_sum_nonneg m]

lemma lambda2_le_lambda1 (m : Matrix2x2) : lambda2 m ≤ lambda1 m := by
  unfold lambda1 lambda2; linarith [disc_nonneg m]

lemma lambda_sum (m : Matrix2x2) : lambda1 m + lambda2 m = gramE m + gramG m := by
  unfold lambda1 lambda2; ring

lemma sv1_sq (m : Matrix2x2) : sv1 m ^ 2 = lambda1 m := Real.sq_sqrt (lambda1_nonneg m)

lemma sv2_sq (m : Matrix2x2) : sv2 m ^ 2 = lambda2 m := Real.sq_sqrt (lambda2_nonneg m)

lemma sv1_nonneg (m : Matrix2x2) : 0 ≤ sv1 m := Real.sqrt_nonneg _

lemma sv2_nonneg (m : Matrix2x2) : 0 ≤ sv2 m := Real.sqrt_nonneg _

lemma sv2_le_sv1 (m : Matrix2x2) : sv2 m ≤ sv1 m :=
  Real.sqrt_le_sqrt (lambda2_le_lambda1 m)

lemma lambda1_char (m : Matrix2x2) :
    lambda1 m ^ 2 - (gramE m + gramG m) * lambda1 m +
      (gramE m * gramG m - gramF m * gramF m) = 0 := by
  have hd := disc_mul_self m
  unfold lambda1
  linear_combination hd / 4

/-! ### Branch analysis of the `V` columns -/

lemma vcols_diag_ge (m : Matrix2x2) (hf : |gramF m| < 1e-10)
    (hge : gramG m ≤ gramE m) : vcols m = ((1, 0), (0, 1)) := by
  unfold vcols; rw [if_pos hf, if_pos hge]

lemma vcols_diag_lt (m : Matrix2x2) (hf : |gramF m| < 1e-10)
    (hlt : ¬ gramG m ≤ gramE m) : vcols m = ((0, 1), (-1, 0)) := by
  unfold vcols; rw [if_pos hf, if_neg hlt]

lemma lambda_prod (m : Matrix2x2) :
    lambda1 m * lambda2 m = gramE m * gramG m - gramF m * gramF m := by
  have hd := disc_mul_self m
  unfold lambda1 lambda2
  linear_combination -hd / 4

lemma vcols_generic (m : Matrix2x2) (hf : ¬ |gramF m| < 1e-10) :
    ∃ p q : ℝ, vcols m = ((p, q), (-q, p)) ∧ p ^ 2 + q ^ 2 = 1 ∧
      gramE m * p + gramF m * q = lambda1 m * p ∧
      gramF m * p + gramG m * q = lambda1 m * q ∧
      gramE m * (-q) + gramF m * p = lambda2 m * (-q) ∧
      gramF m * (-q) + gramG m * p = lambda2 m * p := by
  have hf0 : gramF m ≠ 0 := by
    intro h; exact hf (by rw [h, abs_zero]; norm_num)
  have hpos : 0 < gramF m * gramF m +
      (lambda1 m - gramE m) * (lambda1 m - gramE m) := by
    nlinarith [mul_self_pos.mpr hf0, mul_self_nonneg (lambda1 m - gramE m)]
  have hn : 0 < Real.sqrt (gramF m * gramF m +
      (lambda1 m - gramE m) * (lambda1 m - gramE m)) := Real.sqrt_pos.mpr hpos
  have hn2 : Real.sqrt (gramF m * gramF m +
        (lambda1 m - gramE m) * (lambda1 m - gramE m)) *
      Real.sqrt (gramF m * gramF m +
        (lambda1 m - gramE m) * (lambda1 m - gramE m)) =
      gramF m * gramF m + (lambda1 m - gramE m) * (lambda1 m - gramE m) :=
    Real.mul_self_sqrt hpos.le
  refine ⟨gramF m / Real.sqrt (gramF m * gramF m +
      (lambda1 m - gramE m) * (lambda1 m - gramE m)),
    (lambda1 m - gramE m) / Real.sqrt (gramF m * gramF m +
      (lambda1 m - gramE m) * (lambda1 m - gramE m)), ?_, ?_, ?_, ?_, ?_, ?_⟩
  · simp only [vcols, if_neg hf]
  · field_simp
    ring
  · field_simp
    ring
  · field_simp
    linear_combination -lambda1_char m
  · field_simp
    linear_combination lambda_prod m - gramE m * lambda_sum m
  · field_simp
    linear_combination -gramF m * lambda_sum m

/-! ### Claim C5: `vt` is the transpose of `v` -/

/-- C5: for every matrix `A`, the result of `computeSVD A` satisfies
`vt[i][j] = v[j][i]` for all `i, j` in `{0,1}`. -/
theorem svd_vt_is_transpose (m : Matrix2x2) (i j : Fin 2) :
    (computeSVD m).vt.entry i j = (computeSVD m).v.entry j i := by
  fin_cases i <;> fin_cases j <;> rfl

/-! ### Claim C6: reconstruction is the standard triple product -/

/-- C6: for every `U`, `S = (s0, s1)` and `Vt` (no orthogonality or
sign precondition), `reconstructMatrix U S Vt` equals
`U * diag(s0, s1) * Vt` under the standard multiply semantics
`(XY)[i][j] = sum over k of X[i][k] * Y[k][j]`. -/
theorem reconstruct_matches_standard_matmul (u : Matrix2x2) (s : ℝ × ℝ)
    (vt : Matrix2x2) (i j : Fin 2) :
    (reconstructMatrix u s vt).entry i j =
      ∑ k : Fin 2, (∑ l : Fin 2, u.entry i l * (diagOf s).entry l k) * vt.entry k j := by
  fin_cases i <;> fin_cases j <;>
    simp [reconstructMatrix, matMul, diagOf, Matrix2x2.entry, Fin.sum_univ_two]

/-! ### Claim C3: ordering and non-negativity of the singular values -/

/-- C3: for every matrix `A`, the eigenvalues satisfy
`lambda1 >= lambda2 >= 0` (so in exact arithmetic the square roots are
well defined; no clamping is ever needed), and the returned singular
values satisfy `s0 >= s1 >= 0`. -/
theorem singular_values_ordered (m : Matrix2x2) :
    0 ≤ lambda2 m ∧ lambda2 m ≤ lambda1 m ∧
      0 ≤ (computeSVD m).s.2 ∧ (computeSVD m).s.2 ≤ (computeSVD m).s.1 :=
  ⟨lambda2_nonneg m, lambda2_le_lambda1 m, sv2_nonneg m, sv2_le_sv1 m⟩

/-! ### Claim C4: `V` is a proper rotation -/

/-- C4: for every matrix `A`, `computeSVD A` produces a `v` with
determinant exactly `+1`, in the generic branch and in both sub-cases of
the diagonal-Gram branch. -/
theorem svd_v_det_one (m : Matrix2x2) : det2 (computeSVD m).v = 1 := by
  by_cases hf : |gramF m| < 1e-10
  · by_cases hge : gramG m ≤ gramE m
    · simp [det2, computeSVD, vcols_diag_ge m hf hge]
    · simp [det2, computeSVD, vcols_diag_lt m hf hge]
  · obtain ⟨p, q, hv, hpq, -, -, -, -⟩ := vcols_generic m hf
    simp only [det2, computeSVD, hv]
    linear_combination hpq

/-! ### Claim C9: the zero matrix decomposes without error -/

/-- C9: `computeSVD` of the zero matrix returns `S = (0, 0)` and
`U = identity` (via the zero-singular-value fallbacks `u1 = (1,0)`,
`u2 = (-u1.y, u1.x)`). -/
theorem computeSVD_zero_matrix :
    (computeSVD ⟨0, 0, 0, 0⟩).s = (0, 0) ∧
      (computeSVD ⟨0, 0, 0, 0⟩).u = ⟨1, 0, 0, 1⟩ := by
  have he : gramE ⟨0, 0, 0, 0⟩ = 0 := by norm_num [gramE]
  have hf : gramF ⟨0, 0, 0, 0⟩ = 0 := by norm_num [gramF]
  have hg : gramG ⟨0, 0, 0, 0⟩ = 0 := by norm_num [gramG]
  have hd : disc ⟨0, 0, 0, 0⟩ = 0 := by
    unfold disc; rw [he, hf, hg]; norm_num
  have hl1 : lambda1 ⟨0, 0, 0, 0⟩ = 0 := by unfold lambda1; rw [he, hg, hd]; norm_num
  have hl2 : lambda2 ⟨0, 0, 0, 0⟩ = 0 := by unfold lambda2; rw [he, hg, hd]; norm_num
  have hs1 : sv1 ⟨0, 0, 0, 0⟩ = 0 := by unfold sv1; rw [hl1]; exact Real.sqrt_zero
  have hs2 : sv2 ⟨0, 0, 0, 0⟩ = 0 := by unfold sv2; rw [hl2]; exact Real.sqrt_zero
  have hu1 : ucol1 ⟨0, 0, 0, 0⟩ = (1, 0) := by
    unfold ucol1; rw [hs1, if_neg (by norm_num)]
  have hu2 : ucol2 ⟨0, 0, 0, 0⟩ = (0, 1) := by
    unfold ucol2; rw [hs2, if_neg (by norm_num), hu1]; norm_num
  exact ⟨by simp [computeSVD, hs1, hs2], by simp [computeSVD, hu1, hu2]⟩

/-! ### Helpers for column norms and the degenerate diagonal branch -/

lemma div_norm_one {x y s L : ℝ} (hs : s ≠ 0) (hsq : s ^ 2 = L)
    (hxy : x ^ 2 + y ^ 2 = L) : (x / s) ^ 2 + (y / s) ^ 2 = 1 := by
  field_simp
  linear_combination hxy - hsq

lemma div_dot {x1 y1 x2 y2 s t : ℝ} (hs : s ≠ 0) (ht : t ≠ 0)
    (h : x1 * x2 + y1 * y2 = 0) :
    x1 / s * (x2 / t) + y1 / s * (y2 / t) = 0 := by
  field_simp
  linear_combination h

lemma rot_unitPerp {x : ℝ × ℝ} (h : x.1 ^ 2 + x.2 ^ 2 = 1) :
    unitPerp x (-x.2, x.1) := by
  refine ⟨h, ?_, by ring⟩
  simp only
  linear_combination h

lemma disc_diag_ge (m : Matrix2x2) (h0 : gramF m = 0)
    (hge : gramG m ≤ gramE m) : disc m = gramE m - gramG m := by
  have harg : (gramE m - gramG m) * (gramE m - gramG m) + 4 * gramF m * gramF m =
      (gramE m - gramG m) * (gramE m - gramG m) := by rw [h0]; ring
  unfold disc
  rw [harg]
  exact Real.sqrt_mul_self (by linarith)

lemma disc_diag_lt (m : Matrix2x2) (h0 : gramF m = 0)
    (hlt : ¬ gramG m ≤ gramE m) : disc m = gramG m - gramE m := by
  have harg : (gramE m - gramG m) * (gramE m - gramG m) + 4 * gramF m * gramF m =
      (gramG m - gramE m) * (gramG m - gramE m) := by rw [h0]; ring
  unfold disc
  rw [harg]
  exact Real.sqrt_mul_self (by push_neg at hlt; linarith)

lemma lambda_diag_ge (m : Matrix2x2) (h0 : gramF m = 0)
    (hge : gramG m ≤ gramE m) : lambda1 m = gramE m ∧ lambda2 m = gramG m := by
  have hd := disc_diag_ge m h0 hge
  unfold lambda1 lambda2
  rw [hd]
  constructor <;> ring

lemma lambda_diag_lt (m : Matrix2x2) (h0 : gramF m = 0)
    (hlt : ¬ gramG m ≤ gramE m) : lambda1 m = gramG m ∧ lambda2 m = gramE m := by
  have hd := disc_diag_lt m h0 hlt
  unfold lambda1 lambda2
  rw [hd]
  constructor <;> ring

lemma disc_ge_two_abs_f (m : Matrix2x2) : 2 * |gramF m| ≤ disc m := by
  have h : (2 * |gramF m|) ^ 2 ≤
      (gramE m - gramG m) * (gramE m - gramG m) + 4 * gramF m * gramF m := by
    rw [mul_pow, sq_abs]
    nlinarith [mul_self_nonneg (gramE m - gramG m)]
  calc 2 * |gramF m| = Real.sqrt ((2 * |gramF m|) ^ 2) :=
        (Real.sqrt_sq (by positivity)).symm
    _ ≤ disc m := Real.sqrt_le_sqrt h

lemma sv1_gt_generic (m : Matrix2x2) (hf : ¬ |gramF m| < 1e-10) :
    1e-9 < sv1 m := by
  have habs : (1e-10 : ℝ) ≤ |gramF m| := not_lt.mp hf
  have hl : (2e-10 : ℝ) ≤ lambda1 m := by
    have h1 := disc_ge_two_abs_f m
    have h2 := disc_le_sum m
    unfold lambda1
    linarith
  rw [sv1, show (1e-9 : ℝ) = Real.sqrt (1e-18) by
    rw [show (1e-18 : ℝ) = (1e-9) ^ 2 by norm_num, Real.sqrt_sq (by norm_num)]]
  exact Real.sqrt_lt_sqrt (by norm_num) (by linarith)

/-! ### Orthonormality of the `U` columns off the perturbed-diagonal region -/

lemma ucols_orthonormal (m : Matrix2x2)
    (hf : gramF m = 0 ∨ ¬ |gramF m| < 1e-10) :
    unitPerp (ucol1 m) (ucol2 m) := by
  rcases hf with h0 | hgen
  · have hfb : |gramF m| < 1e-10 := by rw [h0, abs_zero]; norm_num
    by_cases hge : gramG m ≤ gramE m
    · obtain ⟨hl1, hl2⟩ := lambda_diag_ge m h0 hge
      have hv := vcols_diag_ge m hfb hge
      have h1 : (ucol1 m).1 ^ 2 + (ucol1 m).2 ^ 2 = 1 := by
        by_cases hs1 : 1e-9 < sv1 m
        · have hs1ne : sv1 m ≠ 0 := ne_of_gt (lt_trans (by norm_num) hs1)
          have hu1 : ucol1 m = (m.m00 / sv1 m, m.m10 / sv1 m) := by
            unfold ucol1; rw [if_pos hs1, hv]; norm_num
          rw [hu1]
          exact div_norm_one hs1ne (by rw [sv1_sq, hl1]) (by unfold gramE; ring)
        · have hu1 : ucol1 m = (1, 0) := by unfold ucol1; rw [if_neg hs1]
          rw [hu1]; norm_num
      by_cases hs2 : 1e-9 < sv2 m
      · have hs1 : 1e-9 < sv1 m := lt_of_lt_of_le hs2 (sv2_le_sv1 m)
        have hs1ne : sv1 m ≠ 0 := ne_of_gt (lt_trans (by norm_num) hs1)
        have hs2ne : sv2 m ≠ 0 := ne_of_gt (lt_trans (by norm_num) hs2)
        have hu1 : ucol1 m = (m.m00 / sv1 m, m.m10 / sv1 m) := by
          unfold ucol1; rw [if_pos hs1, hv]; norm_num
        have hu2 : ucol2 m = (m.m01 / sv2 m, m.m11 / sv2 m) := by
          unfold ucol2; rw [if_pos hs2, hv]; norm_num
        refine ⟨h1, ?_, ?_⟩
        · rw [hu2]
          exact div_norm_one hs2ne (by rw [sv2_sq, hl2]) (by unfold gramG; ring)
        · rw [hu1, hu2]
          refine div_dot hs1ne hs2ne ?_
          have hh := h0; unfold gramF at hh; linarith
      · have hu2 : ucol2 m = (-(ucol1 m).2, (ucol1 m).1) := by
          unfold ucol2; rw [if_neg hs2]
        rw [hu2]; exact rot_unitPerp h1
    · obtain ⟨hl1, hl2⟩ := lambda_diag_lt m h0 hge
      have hv := vcols_diag_lt m hfb hge
      have h1 : (ucol1 m).1 ^ 2 + (ucol1 m).2 ^ 2 = 1 := by
        by_cases hs1 : 1e-9 < sv1 m
        · have hs1ne : sv1 m ≠ 0 := ne_of_gt (lt_trans (by norm_num) hs1)
          have hu1 : ucol1 m = (m.m01 / sv1 m, m.m11 / sv1 m) := by
            unfold ucol1; rw [if_pos hs1, hv]; norm_num
          rw [hu1]
          exact div_norm_one hs1ne (by rw [sv1_sq, hl1]) (by unfold gramG; ring)
        · have hu1 : ucol1 m = (1, 0) := by unfold ucol1; rw [if_neg hs1]
          rw [hu1]; norm_num
      by_cases hs2 : 1e-9 < sv2 m
      · have hs1 : 1e-9 < sv1 m := lt_of_lt_of_le hs2 (sv2_le_sv1 m)
        have hs1ne : sv1 m ≠ 0 := ne_of_gt (lt_trans (by norm_num) hs1)
        have hs2ne : sv2 m ≠ 0 := ne_of_gt (lt_trans (by norm_num) hs2)
        have hu1 : ucol1 m = (m.m01 / sv1 m, m.m11 / sv1 m) := by
          unfold ucol1; rw [if_pos hs1, hv]; norm_num
        have hu2 : ucol2 m = (-m.m00 / sv2 m, -m.m10 / sv2 m) := by
          unfold ucol2; rw [if_pos hs2, hv]; norm_num
        refine ⟨h1, ?_, ?_⟩
        · rw [hu2]
          exact div_norm_one hs2ne (by rw [sv2_sq, hl2]) (by unfold gramE; ring)
        · rw [hu1, hu2]
          refine div_dot hs1ne hs2ne ?_
          have hh := h0; unfold gramF at hh; linarith
      · have hu2 : ucol2 m = (-(ucol1 m).2, (ucol1 m).1) := by
          unfold ucol2; rw [if_neg hs2]
        rw [hu2]; exact rot_unitPerp h1
  · obtain ⟨p, q, hv, hpq, he1, he2, he3, he4⟩ := vcols_generic m hgen
    have hs1 : 1e-9 < sv1 m := sv1_gt_generic m hgen
    have hs1ne : sv1 m ≠ 0 := ne_of_gt (lt_trans (by norm_num) hs1)
    simp only [gramE, gramF, gramG] at he1 he2 he3 he4
    have hu1 : ucol1 m =
        ((m.m00 * p + m.m01 * q) / sv1 m, (m.m10 * p + m.m11 * q) / sv1 m) := by
      unfold ucol1; rw [if_pos hs1, hv]
    have h1 : (ucol1 m).1 ^ 2 + (ucol1 m).2 ^ 2 = 1 := by
      rw [hu1]
      exact div_norm_one hs1ne (sv1_sq m)
        (by linear_combination p * he1 + q * he2 + lambda1 m * hpq)
    by_cases hs2 : 1e-9 < sv2 m
    · have hs2ne : sv2 m ≠ 0 := ne_of_gt (lt_trans (by norm_num) hs2)
      have hu2 : ucol2 m =
          ((m.m00 * (-q) + m.m01 * p) / sv2 m, (m.m10 * (-q) + m.m11 * p) / sv2 m) := by
        unfold ucol2; rw [if_pos hs2, hv]
      refine ⟨h1, ?_, ?_⟩
      · rw [hu2]
        exact div_norm_one hs2ne (sv2_sq m)
          (by linear_combination (-q) * he3 + p * he4 + lambda2 m * hpq)
      · rw [hu1, hu2]
        exact div_dot hs1ne hs2ne (by linear_combination (-q) * he1 + p * he2)
    · have hu2 : ucol2 m = (-(ucol1 m).2, (ucol1 m).1) := by
        unfold ucol2; rw [if_neg hs2]
      rw [hu2]; exact rot_unitPerp h1

/-! ### Orthonormality of the `V` columns (all branches) -/

lemma vcols_unitPerp (m : Matrix2x2) : unitPerp (vcols m).1 (vcols m).2 := by
  by_cases hfb : |gramF m| < 1e-10
  · by_cases hge : gramG m ≤ gramE m
    · rw [vcols_diag_ge m hfb hge]
      exact ⟨by norm_num, by norm_num, by norm_num⟩
    · rw [vcols_diag_lt m hfb hge]
      exact ⟨by norm_num, by norm_num, by norm_num⟩
  · obtain ⟨p, q, hv, hpq, -, -, -, -⟩ := vcols_generic m hfb
    rw [hv]
    exact ⟨hpq, by simp only; linear_combination hpq, by simp only; ring⟩

lemma vrows_orthonormal (m : Matrix2x2) :
    (vcols m).1.1 ^ 2 + (vcols m).2.1 ^ 2 = 1 ∧
      (vcols m).1.2 ^ 2 + (vcols m).2.2 ^ 2 = 1 ∧
      (vcols m).1.1 * (vcols m).1.2 + (vcols m).2.1 * (vcols m).2.2 = 0 := by
  by_cases hfb : |gramF m| < 1e-10
  · by_cases hge : gramG m ≤ gramE m
    · rw [vcols_diag_ge m hfb hge]
      exact ⟨by norm_num, by norm_num, by norm_num⟩
    · rw [vcols_diag_lt m hfb hge]
      exact ⟨by norm_num, by norm_num, by norm_num⟩
  · obtain ⟨p, q, hv, hpq, -, -, -, -⟩ := vcols_generic m hfb
    rw [hv]
    exact ⟨by simp only; linear_combination hpq,
      by simp only; linear_combination hpq, by simp only; ring⟩

/-! ### Claim C2 (amended): orthonormal columns -/

/-- C2 (amended): the columns of `v` are exactly unit length and
perpendicular for every input; the columns of `u` are exactly unit
length and perpendicular whenever the Gram off-diagonal `f = ab + cd`
is exactly zero or at least `1e-10` in magnitude.  (When
`0 < |f| < 1e-10` the diagonal fallback axes are not eigenvectors of
the Gram matrix and the `u` columns can fail to be unit, see the
counterexample.) -/
theorem svd_columns_orthonormal (m : Matrix2x2) :
    unitPerp ((computeSVD m).v.m00, (computeSVD m).v.m10)
      ((computeSVD m).v.m01, (computeSVD m).v.m11) ∧
      ((gramF m = 0 ∨ 1e-10 ≤ |gramF m|) →
        unitPerp ((computeSVD m).u.m00, (computeSVD m).u.m10)
          ((computeSVD m).u.m01, (computeSVD m).u.m11)) := by
  refine ⟨vcols_unitPerp m, fun h => ?_⟩
  exact ucols_orthonormal m (h.imp id fun hh => not_lt.mpr hh)

/-- Witness for `svd_columns_orthonormal` at the identity matrix. -/
theorem svd_columns_orthonormal_witness :
    (gramF ⟨1, 0, 0, 1⟩ = 0 ∨ (1e-10 : ℝ) ≤ |gramF ⟨1, 0, 0, 1⟩|) ∧
      unitPerp ((computeSVD ⟨1, 0, 0, 1⟩).u.m00, (computeSVD ⟨1, 0, 0, 1⟩).u.m10)
        ((computeSVD ⟨1, 0, 0, 1⟩).u.m01, (computeSVD ⟨1, 0, 0, 1⟩).u.m11) := by
  have h : gramF ⟨1, 0, 0, 1⟩ = 0 ∨ (1e-10 : ℝ) ≤ |gramF ⟨1, 0, 0, 1⟩| :=
    Or.inl (by unfold gramF; norm_num)
  exact ⟨h, (svd_columns_orthonormal ⟨1, 0, 0, 1⟩).2 h⟩

/-- C2 counterexample: for `A = [[5e-6, 5e-6], [0, 0]]` the first column
of `computeSVD(A).u` has norm `sqrt(1/2)`, which is farther than `1e-9`
from unit length, refuting the original orthogonality claim. -/
theorem svd_u_not_unit_cex :
    1e-9 < |Real.sqrt ((computeSVD cexU).u.m00 ^ 2 + (computeSVD cexU).u.m10 ^ 2) - 1| := by
  have he : gramE cexU = 2.5e-11 := by norm_num [gramE, cexU]
  have hf : gramF cexU = 2.5e-11 := by norm_num [gramF, cexU]
  have hg : gramG cexU = 2.5e-11 := by norm_num [gramG, cexU]
  have hfb : |gramF cexU| < 1e-10 := by
    rw [hf, abs_of_nonneg (by norm_num)]; norm_num
  have hv : vcols cexU = ((1, 0), (0, 1)) :=
    vcols_diag_ge _ hfb (by rw [he, hg])
  have harg : (gramE cexU - gramG cexU) * (gramE cexU - gramG cexU) +
      4 * gramF cexU * gramF cexU = (5e-11 : ℝ) ^ 2 := by
    rw [he, hf, hg]; norm_num
  have hd : disc cexU = 5e-11 := by
    unfold disc; rw [harg]; exact Real.sqrt_sq (by norm_num)
  have hl1 : lambda1 cexU = 5e-11 := by
    unfold lambda1; rw [he, hg, hd]; norm_num
  have hs1sq : sv1 cexU ^ 2 = 5e-11 := by rw [sv1_sq, hl1]
  have hs1 : 1e-9 < sv1 cexU := by
    unfold sv1; rw [hl1,
      show (1e-9 : ℝ) = Real.sqrt (1e-18) by
        rw [show (1e-18 : ℝ) = (1e-9) ^ 2 by norm_num, Real.sqrt_sq (by norm_num)]]
    exact Real.sqrt_lt_sqrt (by norm_num) (by norm_num)
  have hu1 : ucol1 cexU = (5e-6 / sv1 cexU, 0) := by
    unfold ucol1; rw [if_pos hs1, hv]; norm_num [cexU]
  have hsq : (computeSVD cexU).u.m00 ^ 2 + (computeSVD cexU).u.m10 ^ 2 = 1 / 2 := by
    show (ucol1 cexU).1 ^ 2 + (ucol1 cexU).2 ^ 2 = 1 / 2
    rw [hu1]
    simp only
    rw [div_pow, hs1sq]
    norm_num
  rw [hsq]
  have hroot : Real.sqrt (1 / 2) < 1 - 1e-9 :=
    (Real.sqrt_lt' (by norm_num)).mpr (by norm_num)
  rw [abs_of_neg (by linarith : Real.sqrt (1 / 2) - 1 < 0)]
  linarith

/-! ### Claim C1 (amended): exact reconstruction off the degenerate guard -/

/-- C1 (amended): whenever the second computed singular value clears the
`1e-9` guard (so both `u` columns are formed by the division formula),
reconstruction returns the input exactly, in particular within `1e-6`
per entry.  (The original universally quantified claim fails inside the
fallback branch, see the counterexample.) -/
theorem reconstruct_exact_nondegenerate (m : Matrix2x2) (h2 : 1e-9 < sv2 m) :
    reconstructMatrix (computeSVD m).u (computeSVD m).s (computeSVD m).vt = m := by
  have h1 : 1e-9 < sv1 m := lt_of_lt_of_le h2 (sv2_le_sv1 m)
  have hs1ne : sv1 m ≠ 0 := ne_of_gt (lt_trans (by norm_num) h1)
  have hs2ne : sv2 m ≠ 0 := ne_of_gt (lt_trans (by norm_num) h2)
  obtain ⟨hr1, hr2, hr3⟩ := vrows_orthonormal m
  have hu1 : ucol1 m = ((m.m00 * (vcols m).1.1 + m.m01 * (vcols m).1.2) / sv1 m,
      (m.m10 * (vcols m).1.1 + m.m11 * (vcols m).1.2) / sv1 m) := by
    unfold ucol1; rw [if_pos h1]
  have hu2 : ucol2 m = ((m.m00 * (vcols m).2.1 + m.m01 * (vcols m).2.2) / sv2 m,
      (m.m10 * (vcols m).2.1 + m.m11 * (vcols m).2.2) / sv2 m) := by
    unfold ucol2; rw [if_pos h2]
  ext
  · simp only [reconstructMatrix, matMul, computeSVD, hu1, hu2, mul_zero, add_zero,
      zero_add, div_mul_cancel₀ _ hs1ne, div_mul_cancel₀ _ hs2ne]
    linear_combination m.m00 * hr1 + m.m01 * hr3
  · simp only [reconstructMatrix, matMul, computeSVD, hu1, hu2, mul_zero, add_zero,
      zero_add, div_mul_cancel₀ _ hs1ne, div_mul_cancel₀ _ hs2ne]
    linear_combination m.m00 * hr3 + m.m01 * hr2
  · simp only [reconstructMatrix, matMul, computeSVD, hu1, hu2, mul_zero, add_zero,
      zero_add, div_mul_cancel₀ _ hs1ne, div_mul_cancel₀ _ hs2ne]
    linear_combination m.m10 * hr1 + m.m11 * hr3
  · simp only [reconstructMatrix, matMul, computeSVD, hu1, hu2, mul_zero, add_zero,
      zero_add, div_mul_cancel₀ _ hs1ne, div_mul_cancel₀ _ hs2ne]
    linear_combination m.m10 * hr3 + m.m11 * hr2

/-- Witness for `reconstruct_exact_nondegenerate` at `[[2,0],[0,3]]`. -/
theorem reconstruct_exact_nondegenerate_witness :
    1e-9 < sv2 witR ∧
      reconstructMatrix (computeSVD witR).u (computeSVD witR).s (computeSVD witR).vt = witR := by
  have he : gramE witR = 4 := by norm_num [gramE, witR]
  have hf : gramF witR = 0 := by norm_num [gramF, witR]
  have hg : gramG witR = 9 := by norm_num [gramG, witR]
  have hlt : ¬ gramG witR ≤ gramE witR := by rw [he, hg]; norm_num
  obtain ⟨hl1, hl2⟩ := lambda_diag_lt witR hf hlt
  have hsv2 : sv2 witR = 2 := by
    unfold sv2
    rw [hl2, he, show (4 : ℝ) = 2 ^ 2 by norm_num]
    exact Real.sqrt_sq (by norm_num)
  have h : 1e-9 < sv2 witR := by rw [hsv2]; norm_num
  exact ⟨h, reconstruct_exact_nondegenerate witR h⟩

/-- C1 counterexample: for `A = [[1e-5, 5e-6], [0, 0]]` the
reconstructed entry `(0,1)` is `0` while `A`'s is `5e-6`, an error of
`5e-6 > 1e-6`, refuting the original round-trip claim. -/
theorem reconstruct_fails_cex :
    1e-6 < |(reconstructMatrix (computeSVD cexR).u (computeSVD cexR).s
      (computeSVD cexR).vt).m01 - cexR.m01| := by
  have he : gramE cexR = 1e-10 := by norm_num [gramE, cexR]
  have hf : gramF cexR = 5e-11 := by norm_num [gramF, cexR]
  have hg : gramG cexR = 2.5e-11 := by norm_num [gramG, cexR]
  have hfb : |gramF cexR| < 1e-10 := by
    rw [hf, abs_of_nonneg (by norm_num)]; norm_num
  have hv : vcols cexR = ((1, 0), (0, 1)) :=
    vcols_diag_ge _ hfb (by rw [he, hg]; norm_num)
  have harg : (gramE cexR - gramG cexR) * (gramE cexR - gramG cexR) +
      4 * gramF cexR * gramF cexR = (1.25e-10 : ℝ) ^ 2 := by
    rw [he, hf, hg]; norm_num
  have hd : disc cexR = 1.25e-10 := by
    unfold disc; rw [harg]; exact Real.sqrt_sq (by norm_num)
  have hl2 : lambda2 cexR = 0 := by unfold lambda2; rw [he, hg, hd]; norm_num
  have hsv2 : sv2 cexR = 0 := by unfold sv2; rw [hl2]; exact Real.sqrt_zero
  have hrec : (reconstructMatrix (computeSVD cexR).u (computeSVD cexR).s
      (computeSVD cexR).vt).m01 = 0 := by
    simp only [reconstructMatrix, matMul, computeSVD, hv, hsv2]
    norm_num
  rw [hrec, show cexR.m01 = (5e-6 : ℝ) from rfl,
    zero_sub, abs_neg, abs_of_nonneg (by norm_num)]
  norm_num

/-! ### Angle codec claims -/

lemma getAngle_fromAngle {t : ℝ} (ht : t ∈ Set.Ioc (-Real.pi) Real.pi) :
    getAngle (fromAngle t) = t := by
  simp only [getAngle, fromAngle, atan2]
  rw [show ((Real.cos t : ℂ) + (Real.sin t : ℂ) * Complex.I) =
      Complex.cos t + Complex.sin t * Complex.I by
    rw [Complex.ofReal_cos, Complex.ofReal_sin]]
  exact Complex.arg_cos_add_sin_mul_I ht

/-- C7: `getAngle` returns `atan2(R[1][0], R[0][0])`, which lies in the
principal range `(-pi, pi]` and depends only on the two entries
`R[1][0]` and `R[0][0]`. -/
theorem getAngle_principal_and_local (m : Matrix2x2) :
    getAngle m = atan2 m.m10 m.m00 ∧
      getAngle m ∈ Set.Ioc (-Real.pi) Real.pi ∧
      ∀ m' : Matrix2x2, m'.m10 = m.m10 → m'.m00 = m.m00 →
        getAngle m' = getAngle m := by
  refine ⟨rfl, ?_, fun m' h10 h00 => ?_⟩
  · unfold getAngle atan2
    exact Complex.arg_mem_Ioc _
  · unfold getAngle atan2
    rw [h10, h00]

/-- Witness for `getAngle_principal_and_local`: two matrices agreeing on
entries `[1][0]` and `[0][0]` but nowhere else get the same angle. -/
theorem getAngle_principal_and_local_witness :
    (Matrix2x2.mk 1 2 0 3).m10 = (Matrix2x2.mk 1 5 0 7).m10 ∧
      (Matrix2x2.mk 1 2 0 3).m00 = (Matrix2x2.mk 1 5 0 7).m00 ∧
      getAngle ⟨1, 2, 0, 3⟩ = getAngle ⟨1, 5, 0, 7⟩ :=
  ⟨rfl, rfl, (getAngle_principal_and_local ⟨1, 5, 0, 7⟩).2.2 ⟨1, 2, 0, 3⟩ rfl rfl⟩

/-- C8: for every angle in `(-pi, pi]`, decoding the encoded rotation
matrix returns the angle (exactly, hence within `1e-9`). -/
theorem angle_roundtrip (t : ℝ) (ht : t ∈ Set.Ioc (-Real.pi) Real.pi) :
    |getAngle (fromAngle t) - t| ≤ 1e-9 := by
  rw [getAngle_fromAngle ht, sub_self, abs_zero]
  norm_num

/-- Witness for `angle_roundtrip` at angle `0`. -/
theorem angle_roundtrip_witness :
    (0 : ℝ) ∈ Set.Ioc (-Real.pi) Real.pi ∧
      |getAngle (fromAngle 0) - 0| ≤ 1e-9 := by
  have h0 : (0 : ℝ) ∈ Set.Ioc (-Real.pi) Real.pi :=
    ⟨neg_lt_zero.mpr Real.pi_pos, Real.pi_pos.le⟩
  exact ⟨h0, angle_roundtrip 0 h0⟩

/-- C10: for every real angle, `getAngle (fromAngle t)` is the principal
representative: it lies in `(-pi, pi]` and differs from `t` by an
integer multiple of `2*pi`; moreover `fromAngle` is `2*pi`-periodic. -/
theorem angle_codec_normalizes (t : ℝ) :
    getAngle (fromAngle t) ∈ Set.Ioc (-Real.pi) Real.pi ∧
      (∃ k : ℤ, t - getAngle (fromAngle t) = k * (2 * Real.pi)) ∧
      fromAngle (t + 2 * Real.pi) = fromAngle t := by
  have hper : fromAngle (t + 2 * Real.pi) = fromAngle t := by
    unfold fromAngle
    rw [Real.cos_add_two_pi, Real.sin_add_two_pi]
  set t' := toIocMod Real.two_pi_pos (-Real.pi) t with ht'
  have hmem : t' ∈ Set.Ioc (-Real.pi) (-Real.pi + 2 * Real.pi) :=
    toIocMod_mem_Ioc Real.two_pi_pos (-Real.pi) t
  have hmem' : t' ∈ Set.Ioc (-Real.pi) Real.pi := by
    rwa [show -Real.pi + 2 * Real.pi = Real.pi by ring] at hmem
  have hsub : t - t' =
      (toIocDiv Real.two_pi_pos (-Real.pi) t : ℝ) * (2 * Real.pi) := by
    have h := self_sub_toIocMod Real.two_pi_pos (-Real.pi) t
    rwa [zsmul_eq_mul] at h
  have hfa : fromAngle t = fromAngle t' := by
    have ht2 : t = t' + (toIocDiv Real.two_pi_pos (-Real.pi) t : ℝ) * (2 * Real.pi) := by
      linarith [hsub]
    rw [ht2]
    unfold fromAngle
    rw [Real.cos_add_int_mul_two_pi, Real.sin_add_int_mul_two_pi]
  have hg : getAngle (fromAngle t) = t' := by
    rw [hfa]
    exact getAngle_fromAngle hmem'
  exact ⟨by rw [hg]; exact hmem',
    ⟨toIocDiv Real.two_pi_pos (-Real.pi) t, by rw [hg]; exact hsub⟩, hper⟩
